import Mathlib

/-!
Shallow embedding of the byote text editor (src/src/main.rs).

Strings are modelled as `List Char`; all claims restrict rows to tabs and
printable ASCII, where Rust byte indices coincide with character positions.
Rust `usize` arithmetic is modelled as `Nat`, with explicit wraparound
(`% 2^64`, release-build semantics) at the one place the source can
underflow, and Nat truncated subtraction where the source's `checked_sub`
already yields that behaviour.
-/

namespace Byote

/-- `BYOTE_TAB_STOP` from the source. -/
def BYOTE_TAB_STOP : Nat := 8

/-- `BYOTE_QUIT_TIMES` from the source. -/
def BYOTE_QUIT_TIMES : Nat := 3

/-- `USIZE` modulus for wrapping `usize` arithmetic (release-build Rust). -/
def USIZE : Nat := 2 ^ 64

/-- Wrapping `usize` subtraction `a - b` (release-build Rust semantics),
for `a, b < USIZE`. -/
def usizeSub (a b : Nat) : Nat := (a + (USIZE - b % USIZE)) % USIZE

/-- `ctrl_key` from the source: `k & 0x1f`. -/
def ctrl_key (k : Nat) : Nat := k &&& 0x1f

/-- The `EditorKey` enum from the source. `Char` carries the raw byte. -/
inductive EditorKey where
  | ArrowLeft | ArrowRight | ArrowUp | ArrowDown
  | Home | PageUp | Delete | End | PageDown
  | Return | Escape
  | Char (c : Nat)
deriving DecidableEq, Repr

/-- `is_backspace_or_delete` from the source. -/
def is_backspace_or_delete (k : EditorKey) : Bool :=
  match k with
  | .Delete => true
  | .Char c => c = 127 || c = ctrl_key 104
  | _ => false

/-- The `Highlight` enum from the source. -/
inductive Highlight where
  | Normal | Number | Match
deriving DecidableEq, Repr

/-- `ERow` from the source: raw text, render cache, highlight tags. -/
structure ERow where
  chars : List Char
  render : List Char
  hl : List Highlight
deriving DecidableEq, Repr

/-- `editor_row_cx_to_rx` from the source: fold over the first `cx`
characters, a tab advancing the rendered column to the next multiple of
`BYOTE_TAB_STOP` computed from the accumulated rendered position. -/
def editor_row_cx_to_rx (r : ERow) (cx : Nat) : Nat :=
  (r.chars.take cx).foldl
    (fun rx c => rx + if c = '\t' then BYOTE_TAB_STOP - rx % BYOTE_TAB_STOP else 1) 0

/-- Loop body of `editor_row_rx_to_cx` from the source: it iterates over
`r.render` (the render cache), accumulating `cur_rx` with the tab rule, and
returns the current index as soon as `cur_rx > rx`; if the loop ends it
returns `rx` itself. -/
def rxToCxGo (render : List Char) (curRx cx rx : Nat) : Nat :=
  match render with
  | [] => rx
  | c :: rest =>
    let curRx' := curRx + (if c = '\t' then BYOTE_TAB_STOP - curRx % BYOTE_TAB_STOP else 1)
    if rx < curRx' then cx else rxToCxGo rest curRx' (cx + 1) rx

/-- `editor_row_rx_to_cx` from the source. -/
def editor_row_rx_to_cx (r : ERow) (rx : Nat) : Nat :=
  rxToCxGo r.render 0 0 rx

/-- Render construction in `editor_update_row` from the source:
`char_indices` supplies the index `i` into `chars`, and a tab expands to
`" ".repeat(BYOTE_TAB_STOP - i % BYOTE_TAB_STOP)` — the padding is computed
from the character index `i`, not from the rendered column. -/
def renderGo (i : Nat) (chars : List Char) : List Char :=
  match chars with
  | [] => []
  | c :: rest =>
    (if c = '\t' then List.replicate (BYOTE_TAB_STOP - i % BYOTE_TAB_STOP) ' ' else [c])
      ++ renderGo (i + 1) rest

/-- The render string `editor_update_row` builds from `chars`. -/
def renderOf (chars : List Char) : List Char := renderGo 0 chars

/-- `editor_update_syntax` from the source: one tag per render character,
ASCII digits tagged `Number`, everything else `Normal`. -/
def editor_update_syntax (render : List Char) : List Highlight :=
  render.map (fun c => if c.isDigit then Highlight.Number else Highlight.Normal)

/-- `editor_update_row` from the source: rebuild `render` from `chars`,
then rebuild `hl` from `render`. -/
def editor_update_row (r : ERow) : ERow :=
  let render := renderOf r.chars
  { r with render := render, hl := editor_update_syntax render }

/-- Build a fresh row from text, as `editor_insert_row` does. -/
def mkRow (s : List Char) : ERow := editor_update_row ⟨s, [], []⟩

/-- Status messages, abstracted to constructors carrying the data the
source interpolates into its `format!` strings. -/
inductive StatusMsg where
  | empty
  | text (s : List Char)
  | quitWarning (remaining : Nat)
  | bytesWritten (n : Nat)
  | saveError (err : List Char)
deriving DecidableEq, Repr

/-- `FindState` from the source. `last_match` is `isize` (may be `-1`). -/
structure FindState where
  last_match : Int
  direction : Int
  saved_hl_line : Nat
  saved_hl : Option (List Highlight)
deriving DecidableEq, Repr

/-- `EditorConfig` from the source (terminal handles and the status-message
timestamp omitted). -/
structure EditorConfig where
  screenrows : Nat
  screencols : Nat
  cx : Nat
  rx : Nat
  cy : Nat
  rows : List ERow
  dirty : Bool
  quit_times : Nat
  rowoff : Nat
  coloff : Nat
  filename : Option (List Char)
  statusmsg : StatusMsg
  find : FindState
deriving DecidableEq, Repr

/-! ## Row operations (`editor_insert_row` .. `editor_row_del_char`) -/

/-- `editor_insert_row` from the source: no-op past the end, otherwise
insert a freshly rendered row at `at` and set `dirty`. -/
def editor_insert_row (e : EditorConfig) (at_ : Nat) (s : List Char) : EditorConfig :=
  if e.rows.length < at_ then e
  else { e with rows := e.rows.insertIdx at_ (mkRow s), dirty := true }

/-- `editor_del_row` from the source: no-op past the end, otherwise remove
the row at `at` and set `dirty`. -/
def editor_del_row (e : EditorConfig) (at_ : Nat) : EditorConfig :=
  if e.rows.length ≤ at_ then e
  else { e with rows := e.rows.eraseIdx at_, dirty := true }

/-- `editor_row_insert_char` from the source: inserts into the row at
`e.cy` (the source indexes `e.rows[e.cy]`, which requires `cy` in bounds),
clamping `at` to the text length, then rebuilds the row's caches. -/
def editor_row_insert_char (e : EditorConfig) (at_ : Nat) (c : Char) : EditorConfig :=
  match e.rows[e.cy]? with
  | none => e
  | some row =>
    let row' := editor_update_row { row with chars := row.chars.insertIdx (min at_ row.chars.length) c }
    { e with rows := e.rows.set e.cy row', dirty := true }

/-- `editor_row_append_string` from the source. -/
def editor_row_append_string (e : EditorConfig) (at_row : Nat) (s : List Char) : EditorConfig :=
  match e.rows[at_row]? with
  | none => e
  | some row =>
    { e with rows := e.rows.set at_row (editor_update_row { row with chars := row.chars ++ s }),
             dirty := true }

/-- `editor_row_del_char` from the source: removes the character at
`min at len` (the source's `String::remove` requires `at < len`; callers
only pass in-bounds indices). -/
def editor_row_del_char (e : EditorConfig) (at_row at_ : Nat) : EditorConfig :=
  match e.rows[at_row]? with
  | none => e
  | some row =>
    { e with rows := e.rows.set at_row
               (editor_update_row { row with chars := row.chars.eraseIdx (min at_ row.chars.length) }),
             dirty := true }

/-! ## Editor operations -/

/-- `editor_insert_char` from the source: append an empty row when the
cursor sits on the virtual row past the end, insert at `cx`, advance `cx`. -/
def editor_insert_char (e : EditorConfig) (c : Char) : EditorConfig :=
  let e := if e.cy = e.rows.length then editor_insert_row e e.rows.length [] else e
  let e := editor_row_insert_char e e.cx c
  { e with cx := e.cx + 1 }

/-- `editor_insert_new_line` from the source: split the current row at
`cx` (or insert an empty row when `cx = 0`), then move to column 0 of the
next row. -/
def editor_insert_new_line (e : EditorConfig) : EditorConfig :=
  let e :=
    if e.cx = 0 then editor_insert_row e e.cy []
    else
      match e.rows[e.cy]? with
      | none => e
      | some row =>
        let e := editor_insert_row e (e.cy + 1) (row.chars.drop e.cx)
        match e.rows[e.cy]? with
        | none => e
        | some row' =>
          { e with rows := e.rows.set e.cy (editor_update_row { row' with chars := row'.chars.take e.cx }) }
  { e with cy := e.cy + 1, cx := 0 }

/-- `editor_del_char` from the source: delete before the cursor, or join
the current row into the previous one at column 0. -/
def editor_del_char (e : EditorConfig) : EditorConfig :=
  if e.cy = e.rows.length then e
  else if e.cx = 0 ∧ e.cy = 0 then e
  else if 0 < e.cx then
    let e := editor_row_del_char e e.cy (e.cx - 1)
    { e with cx := e.cx - 1 }
  else
    let prevLen := ((e.rows[e.cy - 1]?).map (fun r => r.chars.length)).getD 0
    let curChars := ((e.rows[e.cy]?).map (fun r => r.chars)).getD []
    let e := { e with cx := prevLen }
    let e := editor_row_append_string e (e.cy - 1) curChars
    let e := editor_del_row e e.cy
    { e with cy := e.cy - 1 }

/-! ## File serialization and save -/

/-- `editor_rows_to_string` from the source: empty list gives the empty
string; otherwise fold the tail onto the first row's text with a single
newline between rows. -/
def editor_rows_to_string (e : EditorConfig) : List Char :=
  match e.rows with
  | [] => []
  | r0 :: rest => rest.foldl (fun a r => a ++ '\n' :: r.chars) r0.chars

/-- The filename-present branch of `editor_save` from the source, with the
file-system write injected as `writeResult` (Ok byte-count or Err text):
on success clear `dirty` and report the byte count, on failure report the
error and leave all other state alone. -/
def editor_save_result (e : EditorConfig) (writeResult : Except (List Char) Nat) : EditorConfig :=
  match writeResult with
  | .ok n => { e with dirty := false, statusmsg := .bytesWritten n }
  | .error err => { e with statusmsg := .saveError err }

/-! ## Viewport -/

/-- `editor_scroll` from the source: derive `rx` from the current row and
`cx`, then clamp `rowoff`/`coloff` so the cursor is inside the window.
Both subtractions are guarded by the comparisons, so Nat subtraction
agrees with `usize`. -/
def editor_scroll (e : EditorConfig) : EditorConfig :=
  let rx := ((e.rows[e.cy]?).map (fun r => editor_row_cx_to_rx r e.cx)).getD 0
  let rowoff := if e.cy < e.rowoff then e.cy else e.rowoff
  let rowoff := if e.screenrows + rowoff ≤ e.cy then e.cy - e.screenrows + 1 else rowoff
  let coloff := if rx < e.coloff then rx else e.coloff
  let coloff := if coloff + e.screencols ≤ rx then rx - e.screencols + 1 else coloff
  { e with rx := rx, rowoff := rowoff, coloff := coloff }

/-! ## Cursor movement -/

/-- `editor_move_cursor` from the source. The ArrowDown guard compares
`e.cy < e.rows.len() - 1` with `usize` subtraction, which wraps around on
an empty document (release build); `usizeSub` models that. After the move,
`cx` is clamped to the new row's length. -/
def editor_move_cursor (key : EditorKey) (e : EditorConfig) : EditorConfig :=
  let rowlen_old := ((e.rows[e.cy]?).map (fun r => r.chars.length)).getD 0
  let row_old_some := e.cy < e.rows.length
  let e : EditorConfig :=
    match key with
    | .ArrowLeft =>
      if 0 < e.cx then { e with cx := e.cx - 1 }
      else if 0 < e.cy then
        { e with cy := e.cy - 1,
                 cx := ((e.rows[e.cy - 1]?).map (fun r => r.chars.length)).getD 0 }
      else e
    | .ArrowRight =>
      if e.cx < rowlen_old then { e with cx := e.cx + 1 }
      else if row_old_some ∧ rowlen_old = e.cx then { e with cy := e.cy + 1, cx := 0 }
      else e
    | .ArrowUp => if 0 < e.cy then { e with cy := e.cy - 1 } else e
    | .ArrowDown => if e.cy < usizeSub e.rows.length 1 then { e with cy := e.cy + 1 } else e
    | _ => e
  let rowlen_new := ((e.rows[e.cy]?).map (fun r => r.chars.length)).getD 0
  if rowlen_new < e.cx then { e with cx := rowlen_new } else e

/-! ## Incremental search -/

/-- Occurrence test for `query` at position `i` of `render`. -/
def substrAt (render query : List Char) (i : Nat) : Bool :=
  decide ((render.drop i).take query.length = query)

/-- `str::find` with a literal pattern, as used on `row.render`: the first
index at which `query` occurs (byte and character indices coincide on the
ASCII rows the claims range over). -/
def strFind (render query : List Char) : Option Nat :=
  (List.range (render.length + 1)).find? (substrAt render query)

/-- The `Vec::splice(rx..rx+query.len(), vec![Match; query.len()])` call
in `editor_find_callback`. -/
def spliceMatch (hl : List Highlight) (rx n : Nat) : List Highlight :=
  hl.take rx ++ List.replicate n Highlight.Match ++ hl.drop (rx + n)

/-- The saved-highlight restore at the top of `editor_find_callback`
(the source indexes `e.rows[saved_hl_line]`, in bounds whenever a
highlight was saved). -/
def findRestoreHl (e : EditorConfig) : EditorConfig :=
  match e.find.saved_hl with
  | none => e
  | some saved =>
    match e.rows[e.find.saved_hl_line]? with
    | none => { e with find := { e.find with saved_hl := none } }
    | some row =>
      { e with rows := e.rows.set e.find.saved_hl_line { row with hl := saved },
               find := { e.find with saved_hl := none } }

/-- The wraparound applied to the scan index after each step of the loop
in `editor_find_callback`. -/
def findWrap (len : Nat) (current : Int) : Int :=
  if current = -1 then (len : Int) - 1
  else if current = (len : Int) then 0
  else current

/-- The scan loop of `editor_find_callback`: step `direction` rows at a
time with wraparound, for at most `rows.len()` iterations, stopping at the
first row whose render contains `query`; on a match record it in the find
state, move the cursor there, force `rowoff` past the end, save the row's
highlight and splice `Match` tags over the matched span. -/
def findLoopGo (e : EditorConfig) (query : List Char) (current : Int) : Nat → EditorConfig
  | 0 => e
  | fuel + 1 =>
    let current := findWrap e.rows.length (current + e.find.direction)
    match e.rows[current.toNat]? with
    | none => e
    | some row =>
      match strFind row.render query with
      | none => findLoopGo e query current fuel
      | some rx =>
        let fs := { e.find with last_match := current, saved_hl_line := current.toNat, saved_hl := some row.hl }
        let e := { e with find := fs, cy := current.toNat, cx := editor_row_rx_to_cx row rx, rowoff := e.rows.length }
        { e with rows := e.rows.set e.cy { row with hl := spliceMatch row.hl rx query.length } }

/-- `editor_find_callback` from the source: restore any saved highlight,
end the session on Escape/Return, otherwise set the direction (arrow keys)
or reset to a fresh forward search (any other key), force direction
forward when there is no last match, and run the scan loop. -/
def editor_find_callback (e : EditorConfig) (query : List Char) (key : EditorKey) : EditorConfig :=
  let e := findRestoreHl e
  match key with
  | .Escape | .Return =>
    { e with find := { e.find with last_match := -1, direction := 1 } }
  | _ =>
    let e : EditorConfig :=
      match key with
      | .ArrowLeft | .ArrowUp => { e with find := { e.find with direction := -1 } }
      | .ArrowDown | .ArrowRight => { e with find := { e.find with direction := 1 } }
      | _ => { e with find := { e.find with last_match := -1, direction := 1 } }
    let e := if e.find.last_match = -1 then { e with find := { e.find with direction := 1 } } else e
    findLoopGo e query e.find.last_match e.rows.length

/-! ## Prompt -/

/-- Control-flow outcome of one iteration of the `editor_prompt` loop. -/
inductive PromptStep where
  | done (result : Option (List Char))
  | more (buf : List Char)
deriving DecidableEq, Repr

/-- One iteration of the `editor_prompt` loop body after reading key `k`:
the outcome, paired with the `(query, key)` arguments of every callback
invocation made during the iteration (the source invokes the callback
inside the Escape and non-empty-Return arms, which return, and otherwise
once at the bottom of the loop body, after the buffer was updated).
A byte is an accepted printable character when it is not an ASCII control
byte (0–31 or 127) and is below 128. -/
def editor_prompt_step (buf : List Char) (k : EditorKey) :
    PromptStep × List (List Char × EditorKey) :=
  if is_backspace_or_delete k ∧ buf ≠ [] then
    let buf := buf.dropLast
    (.more buf, [(buf, k)])
  else
    match k with
    | .Escape => (.done none, [(buf, k)])
    | .Return =>
      if buf ≠ [] then (.done (some buf), [(buf, k)])
      else (.more buf, [(buf, k)])
    | .Char c =>
      if ¬(c < 32 ∨ c = 127) ∧ c < 128 then
        let buf := buf ++ [Char.ofNat c]
        (.more buf, [(buf, k)])
      else (.more buf, [(buf, k)])
    | _ => (.more buf, [(buf, k)])

/-! ## Keypress dispatch -/

/-- Outcome of `editor_process_keypress`: exit the process or continue. -/
inductive KeypressResult where
  | exit
  | cont (e : EditorConfig)
deriving DecidableEq, Repr

/-- The source's trailing `e.quit_times = BYOTE_QUIT_TIMES` assignment at
the end of `editor_process_keypress`. -/
def resetQuit (e : EditorConfig) : EditorConfig := { e with quit_times := BYOTE_QUIT_TIMES }

/-- `editor_process_keypress` from the source, dispatching on an already
decoded key. The interactive `editor_save` (Ctrl-S) and `editor_find`
(Ctrl-F) sessions perform terminal I/O and are injected as `saveFx` and
`findFx`. Every path other than the early-returning quit warning ends with
the source's trailing `e.quit_times = BYOTE_QUIT_TIMES` reset (`resetQuit`). -/
def editor_process_keypress (saveFx findFx : EditorConfig → EditorConfig)
    (e : EditorConfig) (key : EditorKey) : KeypressResult :=
  match key with
  | .Return => .cont (resetQuit (editor_insert_new_line e))
  | .Char 17 =>
    if e.dirty ∧ 0 < e.quit_times then
      .cont { e with statusmsg := .quitWarning e.quit_times, quit_times := e.quit_times - 1 }
    else .exit
  | .Char 19 => .cont (resetQuit (saveFx e))
  | .ArrowDown | .ArrowUp | .ArrowLeft | .ArrowRight =>
    .cont (resetQuit (editor_move_cursor key e))
  | .Home => .cont (resetQuit { e with cx := 0 })
  | .End =>
    .cont (resetQuit (if e.cy < e.rows.length then
      { e with cx := ((e.rows[e.cy]?).map (fun r => r.chars.length)).getD 0 } else e))
  | .Char 6 => .cont (resetQuit (findFx e))
  | .Delete => .cont (resetQuit (editor_del_char (editor_move_cursor .ArrowRight e)))
  | .Char 127 => .cont (resetQuit (editor_del_char e))
  | .Char 8 => .cont (resetQuit (editor_del_char e))
  | .PageUp =>
    .cont (resetQuit ((editor_move_cursor .ArrowUp)^[e.screenrows] { e with cy := e.rowoff }))
  | .PageDown =>
    .cont (resetQuit ((editor_move_cursor .ArrowDown)^[e.screenrows]
      { e with cy := min e.rows.length (usizeSub (e.rowoff + e.screenrows) 1) }))
  | .Char 12 => .cont (resetQuit e)
  | .Char 27 => .cont (resetQuit e)
  | .Char c => .cont (resetQuit (editor_insert_char e (Char.ofNat c)))
  | .Escape => .cont (resetQuit e)

/-! ## Screen composition -/

/-- The visible-row slice bounds computed by `editor_draw_rows`: the source
takes `len = render.len().checked_sub(coloff).unwrap_or(0).min(screencols)`
(Nat truncated subtraction) and, when `len > 0`, slices `render[coloff..len]`
and `hl[coloff..len]` — `coloff` is the start and `len` the END index of the
range. Returns the `(start, stop)` pair of the attempted slice, or `none`
when no slice is taken. -/
def draw_row_slice (renderLen coloff screencols : Nat) : Option (Nat × Nat) :=
  let len := min (renderLen - coloff) screencols
  if 0 < len then some (coloff, len) else none

/-- Rust slice-range well-formedness: `s[start..stop]` requires
`start ≤ stop` and `stop ≤ len`; any other range panics. -/
def sliceInBounds (len start stop : Nat) : Prop := start ≤ stop ∧ stop ≤ len

/-! ## Operation sequences and the render/highlight invariant -/

/-- The row-model mutations of the source, plus one incremental-search
callback step (which restores and splices highlights). -/
inductive EditOp where
  | insertRow (at_ : Nat) (s : List Char)
  | delRow (at_ : Nat)
  | insertChar (c : Char)
  | delChar
  | appendString (at_row : Nat) (s : List Char)
  | newline
  | findStep (query : List Char) (key : EditorKey)
deriving DecidableEq, Repr

/-- Apply one operation, each dispatching to its source function. -/
def applyOp : EditOp → EditorConfig → EditorConfig
  | .insertRow a s, e => editor_insert_row e a s
  | .delRow a, e => editor_del_row e a
  | .insertChar c, e => editor_insert_char e c
  | .delChar, e => editor_del_char e
  | .appendString a s, e => editor_row_append_string e a s
  | .newline, e => editor_insert_new_line e
  | .findStep q k, e => editor_find_callback e q k

/-- Apply a sequence of operations in order. -/
def applyOps (ops : List EditOp) (e : EditorConfig) : EditorConfig :=
  ops.foldl (fun e op => applyOp op e) e

/-- A row's caches are consistent: one highlight tag per render character,
and the render deterministically rebuilt from the text. -/
def RowWf (r : ERow) : Prop :=
  r.hl.length = r.render.length ∧ r.render = renderOf r.chars

/-- The speculatively saved search highlight (if any) belongs to a row
that still exists and still has a render of the saved length. -/
def SavedWf (e : EditorConfig) : Prop :=
  match e.find.saved_hl with
  | none => True
  | some l =>
    match e.rows[e.find.saved_hl_line]? with
    | none => False
    | some r => l.length = r.render.length

/-- Editor-state well-formedness: every row consistent, saved highlight
consistent. -/
def Wf (e : EditorConfig) : Prop :=
  (∀ r ∈ e.rows, RowWf r) ∧ SavedWf e

/-- Side condition under which the program applies each operation: search
callback steps run at any time; row-model mutations only run outside a
search session (no speculatively saved highlight), as in the source, where
mutations are dispatched from `editor_process_keypress` while the search
session owns the keyboard inside `editor_prompt`. -/
def opOk : EditOp → EditorConfig → Prop
  | .findStep _ _, _ => True
  | _, e => e.find.saved_hl = none

/-- All operations of a sequence satisfy their side condition at the state
they are applied in. -/
def OpsOk : List EditOp → EditorConfig → Prop
  | [], _ => True
  | op :: rest, e => opOk op e ∧ OpsOk rest (applyOp op e)

/-- Row `j` of `rows` has a literal substring match for `query` in its
rendered text. -/
def rowHasMatch (rows : List ERow) (query : List Char) (j : Nat) : Prop :=
  ∃ r, rows[j]? = some r ∧ (strFind r.render query).isSome

/-- Modelled from the spec: serialize a document by joining the rows'
texts with a single newline, with no trailing newline beyond the join
(used to compare `editor_rows_to_string` against the spec's words). -/
def joinRows : List (List Char) → List Char
  | [] => []
  | [s] => s
  | s :: rest => s ++ '\n' :: joinRows rest

end Byote

namespace Byote

/-- `EditorConfig::from_env` from the source, given the reported window
size: two rows reserved for the status and message bars. -/
def EditorConfig.from_env (rows cols : Nat) : EditorConfig :=
  { screenrows := rows - 2, screencols := cols, cx := 0, rx := 0, cy := 0,
    rows := [], dirty := false, quit_times := 3, rowoff := 0, coloff := 0,
    filename := none, statusmsg := .empty,
    find := { last_match := -1, direction := 1, saved_hl_line := 0, saved_hl := none } }

end Byote

namespace Byote

/-- C1: the claim states that rebuilding the render cache expands each tab
to the next multiple of the tab stop computed from the rendered position
accumulated so far, so that two consecutive tabs each end on a multiple
of 8. The code instead uses the raw character index: for the row `"\t\t"`
the second tab is padded with `8 - 1 % 8 = 7` spaces, so the render is 15
characters long and the second tab ends at column 15, not 16, while the
row-level conversion `editor_row_cx_to_rx` (which does accumulate the
rendered position) places the end of the second tab at 16. The spec's own
scenario `"ab\tc"` happens to agree because no tab precedes the tab. -/
theorem claim_C1_eval :
    renderOf ['a', 'b', '\t', 'c'] = ['a', 'b', ' ', ' ', ' ', ' ', ' ', ' ', 'c'] ∧
    renderOf ['\t', '\t'] = List.replicate 15 ' ' ∧
    (renderOf ['\t', '\t']).length % BYOTE_TAB_STOP = 7 ∧
    editor_row_cx_to_rx (mkRow ['\t', '\t']) 2 = 16 := by
  decide

/-- C2: the claim states that converting a reachable rendered column back
to a character column and forward again yields a rendered column ≤ the
original, with equality on character boundaries. For the row `"\ta"`,
rendered column 8 is reachable (it is the rendered column of character
column 1), but `editor_row_rx_to_cx` scans the tab-free render cache and
returns the render index 8 itself; converting 8 forward yields rendered
column 9 > 8. -/
theorem claim_C2_eval :
    editor_row_cx_to_rx (mkRow ['\t', 'a']) 1 = 8 ∧
    editor_row_rx_to_cx (mkRow ['\t', 'a']) 8 = 8 ∧
    editor_row_cx_to_rx (mkRow ['\t', 'a'])
      (editor_row_rx_to_cx (mkRow ['\t', 'a']) 8) = 9 := by
  decide

/-- C7: the claim states every cursor-movement key keeps `cy ≤ len(rows)`.
On the empty document (`rows = []`, `cy = 0`) the ArrowDown guard
`e.cy < e.rows.len() - 1` underflows (`usize` wraparound in a release
build; a debug build panics), so ArrowDown moves the cursor to `cy = 1`,
past the document. -/
theorem claim_C7_eval :
    (EditorConfig.from_env 26 80).rows.length = 0 ∧
    (EditorConfig.from_env 26 80).cy = 0 ∧
    (editor_move_cursor .ArrowDown (EditorConfig.from_env 26 80)).cy = 1 := by
  decide

/-- C10: the claim states composing a frame never slices out of range.
`editor_draw_rows` slices `render[coloff..len]`, using the visible length
`len` as the END of the range. With the cursor on a long second row
(`rx = 85`, `screencols = 80`) the scroll recompute sets `coloff = 6`; the
first row has render length 10, so the draw computes the slice range
`6..4`, whose start exceeds its end — an out-of-range slice that panics. -/
theorem claim_C10_eval :
    (editor_scroll { EditorConfig.from_env 26 80 with
        rows := [mkRow (List.replicate 10 'x'), mkRow (List.replicate 86 'y')],
        cy := 1, cx := 85 }).coloff = 6 ∧
    draw_row_slice 10 6 80 = some (6, 4) ∧
    ¬ sliceInBounds 10 6 4 := by
  refine ⟨by decide, by decide, ?_⟩
  intro h
  exact absurd h.1 (by decide)

/-- C8 counterexample: the claim states the prompt does not invoke the
callback when the key is an accepted printable character being appended.
Feeding the printable byte `97` (`'a'`) to the prompt loop with an empty
query performs exactly one callback invocation, with the updated query. -/
theorem claim_C8_counterexample :
    (editor_prompt_step [] (.Char 97)).2 = [(['a'], .Char 97)] := by
  decide

/-- C8 (amended): after each key read, the prompt invokes the callback
exactly once, with the current query as updated by that key and the key
itself — including when the key is an accepted printable character being
appended. -/
theorem claim_C8_thm (buf : List Char) (k : EditorKey) :
    ∃ q, (editor_prompt_step buf k).2 = [(q, k)] := by
  unfold editor_prompt_step
  split
  · exact ⟨buf.dropLast, rfl⟩
  · cases k with
    | Escape => exact ⟨buf, rfl⟩
    | Return =>
      by_cases h : buf ≠ []
      · simp only [if_pos h]
        exact ⟨buf, rfl⟩
      · simp only [if_neg h]
        exact ⟨buf, rfl⟩
    | Char c =>
      by_cases h : ¬(c < 32 ∨ c = 127) ∧ c < 128
      · simp only [if_pos h]
        exact ⟨buf ++ [Char.ofNat c], rfl⟩
      · simp only [if_neg h]
        exact ⟨buf, rfl⟩
    | ArrowLeft => exact ⟨buf, rfl⟩
    | ArrowRight => exact ⟨buf, rfl⟩
    | ArrowUp => exact ⟨buf, rfl⟩
    | ArrowDown => exact ⟨buf, rfl⟩
    | Home => exact ⟨buf, rfl⟩
    | PageUp => exact ⟨buf, rfl⟩
    | Delete => exact ⟨buf, rfl⟩
    | End => exact ⟨buf, rfl⟩
    | PageDown => exact ⟨buf, rfl⟩

end Byote

namespace Byote

/-- C5 counterexample: the claim states the 3rd consecutive quit keypress
(with `dirty = true`, counter starting at 3) terminates the process. In
the code the guard `quit_times > 0` still holds on the 3rd press (the
counter is then 1), so it warns and decrements to 0; only the 4th
consecutive press exits. -/
theorem claim_C5_counterexample :
    let e0 := { EditorConfig.from_env 26 80 with dirty := true }
    let e1 := { e0 with statusmsg := .quitWarning 3, quit_times := 2 }
    let e2 := { e1 with statusmsg := .quitWarning 2, quit_times := 1 }
    let e3 := { e2 with statusmsg := .quitWarning 1, quit_times := 0 }
    editor_process_keypress id id e0 (.Char 17) = .cont e1 ∧
    editor_process_keypress id id e1 (.Char 17) = .cont e2 ∧
    editor_process_keypress id id e2 (.Char 17) = .cont e3 ∧
    editor_process_keypress id id e2 (.Char 17) ≠ .exit ∧
    editor_process_keypress id id e3 (.Char 17) = .exit := by
  decide

/-- C5 (amended): with `dirty = true`, each quit keypress while the
counter is positive only warns (naming the current counter value as the
number of further presses required) and decrements — so starting from 3,
the 1st, 2nd and 3rd consecutive presses warn naming 3, 2, 1 — and the
press made once the counter reaches 0 (the 4th consecutive press)
terminates; any intervening non-quit keypress resets the counter to 3. -/
theorem claim_C5_thm (saveFx findFx : EditorConfig → EditorConfig)
    (e : EditorConfig) (key : EditorKey) (hkey : key ≠ .Char 17) :
    (e.dirty = true → 0 < e.quit_times →
      editor_process_keypress saveFx findFx e (.Char 17) =
        .cont { e with statusmsg := .quitWarning e.quit_times,
                       quit_times := e.quit_times - 1 }) ∧
    (e.dirty = false ∨ e.quit_times = 0 →
      editor_process_keypress saveFx findFx e (.Char 17) = .exit) ∧
    (∀ e', editor_process_keypress saveFx findFx e key = .cont e' →
      e'.quit_times = BYOTE_QUIT_TIMES) := by
  refine ⟨?_, ?_, ?_⟩
  · intro hd hq
    simp [editor_process_keypress, hd, hq]
  · intro h
    rcases h with h | h
    · simp [editor_process_keypress, h]
    · simp [editor_process_keypress, h]
  · intro e' h
    unfold editor_process_keypress at h
    split at h
    all_goals first
      | exact absurd rfl hkey
      | (injection h with h2; rw [h2.symm]; rfl)

end Byote

namespace Byote

/-- Witness for C5 (amended) at a concrete dirty editor state and the
concrete non-quit key `'a'`. -/
theorem claim_C5_witness :
    let e0 := { EditorConfig.from_env 26 80 with dirty := true }
    (e0.dirty = true → 0 < e0.quit_times →
      editor_process_keypress id id e0 (.Char 17) =
        .cont { e0 with statusmsg := .quitWarning e0.quit_times, quit_times := e0.quit_times - 1 }) ∧
    (e0.dirty = false ∨ e0.quit_times = 0 →
      editor_process_keypress id id e0 (.Char 17) = .exit) ∧
    (∀ e', editor_process_keypress id id e0 (.Char 97) = .cont e' →
      e'.quit_times = BYOTE_QUIT_TIMES) :=
  claim_C5_thm id id { EditorConfig.from_env 26 80 with dirty := true }
    (.Char 97) (by decide)

/-- C3: after the per-frame `editor_scroll` recompute, the cursor lies in
the viewport: `rowoff ≤ cy < rowoff + screenrows` and
`coloff ≤ rx < coloff + screencols`, where `rx` is freshly derived from
`cx` by tab expansion of the current row (for any prior offsets and any
cursor position, given positive screen dimensions). -/
theorem claim_C3_thm (e : EditorConfig) (hr : 0 < e.screenrows) (hc : 0 < e.screencols) :
    (editor_scroll e).rowoff ≤ e.cy ∧
    e.cy < (editor_scroll e).rowoff + e.screenrows ∧
    (editor_scroll e).coloff ≤ (editor_scroll e).rx ∧
    (editor_scroll e).rx < (editor_scroll e).coloff + e.screencols := by
  simp only [editor_scroll]
  split_ifs <;> omega

/-- Witness for C3 at a concrete state with a tab-containing row and
nonzero prior offsets. -/
theorem claim_C3_witness :
    let e0 := { EditorConfig.from_env 26 80 with rows := [mkRow ['\t', 'a']], cy := 0, cx := 2, rowoff := 7, coloff := 50 }
    (editor_scroll e0).rowoff ≤ e0.cy ∧
    e0.cy < (editor_scroll e0).rowoff + e0.screenrows ∧
    (editor_scroll e0).coloff ≤ (editor_scroll e0).rx ∧
    (editor_scroll e0).rx < (editor_scroll e0).coloff + e0.screencols :=
  claim_C3_thm { EditorConfig.from_env 26 80 with rows := [mkRow ['\t', 'a']], cy := 0, cx := 2, rowoff := 7, coloff := 50 }
    (by decide) (by decide)

end Byote

namespace Byote

/-- `editor_row_insert_char` sets `dirty` when the cursor row exists. -/
theorem editor_row_insert_char_dirty_of_lt (e : EditorConfig) (a : Nat) (c : Char)
    (h : e.cy < e.rows.length) : (editor_row_insert_char e a c).dirty = true := by
  unfold editor_row_insert_char
  simp only [List.getElem?_eq_getElem h]

/-- `editor_row_insert_char` never clears an already-set `dirty`. -/
theorem editor_row_insert_char_dirty_mono (e : EditorConfig) (a : Nat) (c : Char)
    (h : e.dirty = true) : (editor_row_insert_char e a c).dirty = true := by
  unfold editor_row_insert_char
  cases e.rows[e.cy]? <;> simp [h]

/-- `editor_insert_char` sets `dirty` whenever the cursor row is within
bounds (including the virtual row past the last line). -/
theorem editor_insert_char_dirty (e : EditorConfig) (c : Char)
    (h : e.cy ≤ e.rows.length) : (editor_insert_char e c).dirty = true := by
  unfold editor_insert_char
  by_cases hcy : e.cy = e.rows.length
  · rw [if_pos hcy]
    apply editor_row_insert_char_dirty_mono
    unfold editor_insert_row
    rw [if_neg (lt_irrefl e.rows.length)]
  · rw [if_neg hcy]
    exact editor_row_insert_char_dirty_of_lt e e.cx c (lt_of_le_of_ne h hcy)

/-- Folding the newline join over the tail accumulates on the right. -/
theorem foldl_newline_append (l : List ERow) (a : List Char) :
    l.foldl (fun acc r => acc ++ '\n' :: r.chars) a
      = a ++ (l.map (fun r => '\n' :: r.chars)).flatten := by
  induction l generalizing a with
  | nil => simp
  | cons r rest ih => simp [ih]

/-- The spec's newline join, unfolded over a leading row text. -/
theorem joinRows_map_chars (s : List Char) (l : List ERow) :
    joinRows (s :: l.map ERow.chars) = s ++ (l.map (fun r => '\n' :: r.chars)).flatten := by
  induction l generalizing s with
  | nil => simp [joinRows]
  | cons r rest ih => simp [joinRows, ih]

/-- C6: inserting one character sets `dirty`; the document serializes as
the rows' texts joined by single newlines with no trailing newline; a
successful write clears `dirty` and reports the byte count; a failed write
reports the error text and leaves `dirty` and the document unchanged. -/
theorem claim_C6_thm (e : EditorConfig) (c : Char) (n : Nat) (err : List Char)
    (hcy : e.cy ≤ e.rows.length) :
    (editor_insert_char e c).dirty = true ∧
    editor_rows_to_string e = joinRows (e.rows.map ERow.chars) ∧
    (editor_save_result e (.ok n)).dirty = false ∧
    (editor_save_result e (.ok n)).statusmsg = .bytesWritten n ∧
    (editor_save_result e (.error err)).dirty = e.dirty ∧
    (editor_save_result e (.error err)).rows = e.rows ∧
    (editor_save_result e (.error err)).statusmsg = .saveError err := by
  refine ⟨editor_insert_char_dirty e c hcy, ?_, rfl, rfl, rfl, rfl, rfl⟩
  unfold editor_rows_to_string
  cases e.rows with
  | nil => rfl
  | cons r0 rest => simp [foldl_newline_append, joinRows_map_chars]

/-- Witness for C6 at a concrete two-row dirty document. -/
theorem claim_C6_witness :
    let e0 := { EditorConfig.from_env 26 80 with rows := [mkRow ['a'], mkRow ['1', '\t']], dirty := true }
    (editor_insert_char e0 'z').dirty = true ∧
    editor_rows_to_string e0 = joinRows (e0.rows.map ERow.chars) ∧
    (editor_save_result e0 (.ok 5)).dirty = false ∧
    (editor_save_result e0 (.ok 5)).statusmsg = .bytesWritten 5 ∧
    (editor_save_result e0 (.error ['b', 'a', 'd'])).dirty = e0.dirty ∧
    (editor_save_result e0 (.error ['b', 'a', 'd'])).rows = e0.rows ∧
    (editor_save_result e0 (.error ['b', 'a', 'd'])).statusmsg = .saveError ['b', 'a', 'd'] :=
  claim_C6_thm { EditorConfig.from_env 26 80 with rows := [mkRow ['a'], mkRow ['1', '\t']], dirty := true }
    'z' 5 ['b', 'a', 'd'] (by decide)

end Byote

namespace Byote

/-- `editor_update_row` establishes the row invariant by construction. -/
theorem rowWf_update_row (r : ERow) : RowWf (editor_update_row r) := by
  constructor
  · simp [editor_update_row, editor_update_syntax]
  · rfl

/-- Fresh rows are well-formed. -/
theorem rowWf_mkRow (s : List Char) : RowWf (mkRow s) := rowWf_update_row _

/-- With no saved highlight, the saved-highlight invariant is trivial. -/
theorem savedWf_of_none (e : EditorConfig) (h : e.find.saved_hl = none) : SavedWf e := by
  unfold SavedWf
  rw [h]
  trivial

/-- Replacing one row by a well-formed row keeps all rows well-formed. -/
theorem rowsWf_set (rows : List ERow) (i : Nat) (r : ERow)
    (h : ∀ x ∈ rows, RowWf x) (hr : RowWf r) : ∀ x ∈ rows.set i r, RowWf x := by
  intro x hx
  rcases List.mem_or_eq_of_mem_set hx with h1 | h1
  · exact h x h1
  · exact h1 ▸ hr

/-- `editor_insert_row` keeps all rows well-formed. -/
theorem rowsWf_insert_row (e : EditorConfig) (a : Nat) (s : List Char)
    (h : ∀ x ∈ e.rows, RowWf x) : ∀ x ∈ (editor_insert_row e a s).rows, RowWf x := by
  unfold editor_insert_row
  split
  · exact h
  · next hguard =>
    intro x hx
    rcases (List.mem_insertIdx (Nat.le_of_not_lt hguard)).1 hx with h1 | h1
    · exact h1 ▸ rowWf_mkRow s
    · exact h x h1

/-- `editor_del_row` keeps all rows well-formed. -/
theorem rowsWf_del_row (e : EditorConfig) (a : Nat)
    (h : ∀ x ∈ e.rows, RowWf x) : ∀ x ∈ (editor_del_row e a).rows, RowWf x := by
  unfold editor_del_row
  split
  · exact h
  · exact fun x hx => h x (List.mem_of_mem_eraseIdx hx)

/-- `editor_row_insert_char` keeps all rows well-formed. -/
theorem rowsWf_row_insert_char (e : EditorConfig) (a : Nat) (c : Char)
    (h : ∀ x ∈ e.rows, RowWf x) : ∀ x ∈ (editor_row_insert_char e a c).rows, RowWf x := by
  unfold editor_row_insert_char
  cases e.rows[e.cy]? with
  | none => exact h
  | some row => exact rowsWf_set _ _ _ h (rowWf_update_row _)

/-- `editor_row_append_string` keeps all rows well-formed. -/
theorem rowsWf_row_append_string (e : EditorConfig) (a : Nat) (s : List Char)
    (h : ∀ x ∈ e.rows, RowWf x) : ∀ x ∈ (editor_row_append_string e a s).rows, RowWf x := by
  unfold editor_row_append_string
  cases e.rows[a]? with
  | none => exact h
  | some row => exact rowsWf_set _ _ _ h (rowWf_update_row _)

/-- `editor_row_del_char` keeps all rows well-formed. -/
theorem rowsWf_row_del_char (e : EditorConfig) (a b : Nat)
    (h : ∀ x ∈ e.rows, RowWf x) : ∀ x ∈ (editor_row_del_char e a b).rows, RowWf x := by
  unfold editor_row_del_char
  cases e.rows[a]? with
  | none => exact h
  | some row => exact rowsWf_set _ _ _ h (rowWf_update_row _)

/-- `editor_insert_char` keeps all rows well-formed. -/
theorem rowsWf_insert_char (e : EditorConfig) (c : Char)
    (h : ∀ x ∈ e.rows, RowWf x) : ∀ x ∈ (editor_insert_char e c).rows, RowWf x := by
  unfold editor_insert_char
  split
  · exact rowsWf_row_insert_char _ _ _ (rowsWf_insert_row e e.rows.length [] h)
  · exact rowsWf_row_insert_char _ _ _ h

/-- `editor_insert_new_line` keeps all rows well-formed. -/
theorem rowsWf_insert_new_line (e : EditorConfig)
    (h : ∀ x ∈ e.rows, RowWf x) : ∀ x ∈ (editor_insert_new_line e).rows, RowWf x := by
  unfold editor_insert_new_line
  dsimp only
  split
  · exact rowsWf_insert_row e e.cy [] h
  · split
    · exact h
    · split
      · exact rowsWf_insert_row e (e.cy + 1) _ h
      · exact rowsWf_set _ _ _ (rowsWf_insert_row e (e.cy + 1) _ h) (rowWf_update_row _)

/-- `editor_del_char` keeps all rows well-formed. -/
theorem rowsWf_del_char (e : EditorConfig)
    (h : ∀ x ∈ e.rows, RowWf x) : ∀ x ∈ (editor_del_char e).rows, RowWf x := by
  unfold editor_del_char
  split
  · exact h
  split
  · exact h
  split
  · exact rowsWf_row_del_char _ _ _ h
  · exact rowsWf_del_row _ _ (rowsWf_row_append_string _ _ _ h)

end Byote

namespace Byote

/-- An element retrieved by index is a member. -/
theorem mem_of_getElem?_eq_some {α : Type} {l : List α} {i : Nat} {a : α}
    (h : l[i]? = some a) : a ∈ l := by
  have h1 := List.getElem?_eq_some.1 h
  exact h1.2 ▸ List.getElem_mem h1.1

/-- A successful `strFind` leaves room for the whole query inside the
haystack. -/
theorem strFind_bound (render query : List Char) (rx : Nat)
    (h : strFind render query = some rx) : rx + query.length ≤ render.length := by
  unfold strFind at h
  have hmem := List.mem_of_find?_eq_some h
  have hpred := List.find?_some h
  simp only [List.mem_range] at hmem
  unfold substrAt at hpred
  rw [decide_eq_true_eq] at hpred
  have hlen := congrArg List.length hpred
  simp only [List.length_take, List.length_drop] at hlen
  omega

/-- Splicing a span inside bounds preserves the highlight length. -/
theorem spliceMatch_length (hl : List Highlight) (rx n : Nat) (h : rx + n ≤ hl.length) :
    (spliceMatch hl rx n).length = hl.length := by
  simp only [spliceMatch, List.length_append, List.length_take, List.length_replicate,
    List.length_drop]
  omega

/-- The saved-highlight restore always leaves no saved highlight. -/
theorem findRestoreHl_saved_none (e : EditorConfig) :
    (findRestoreHl e).find.saved_hl = none := by
  unfold findRestoreHl
  split
  · next hnone => exact hnone
  · split <;> rfl

/-- The saved-highlight restore keeps all rows well-formed. -/
theorem rowsWf_findRestoreHl (e : EditorConfig) (hw : Wf e) :
    ∀ x ∈ (findRestoreHl e).rows, RowWf x := by
  obtain ⟨hr, hs⟩ := hw
  unfold findRestoreHl
  split
  · exact hr
  · next saved hsaved =>
    split
    · exact hr
    · next row hrow =>
      apply rowsWf_set _ _ _ hr
      simp only [SavedWf, hsaved, hrow] at hs
      exact ⟨hs, (hr row (mem_of_getElem?_eq_some hrow)).2⟩

/-- The scan loop of the find callback preserves well-formedness, given
no saved highlight on entry. -/
theorem wf_findLoopGo (e : EditorConfig) (query : List Char) (fuel : Nat) (current : Int)
    (hr : ∀ x ∈ e.rows, RowWf x) (hs : e.find.saved_hl = none) :
    Wf (findLoopGo e query current fuel) := by
  induction fuel generalizing current with
  | zero => exact ⟨hr, savedWf_of_none e hs⟩
  | succ fuel ih =>
    unfold findLoopGo
    dsimp only
    split
    · exact ⟨hr, savedWf_of_none e hs⟩
    · next row hrow =>
      split
      · exact ih _
      · next rx hrx =>
        have hmem := mem_of_getElem?_eq_some hrow
        have hhl := (hr row hmem).1
        have hbound : rx + query.length ≤ row.hl.length := by
          rw [hhl]
          exact strFind_bound _ _ _ hrx
        constructor
        · apply rowsWf_set _ _ _ hr
          exact ⟨by rw [spliceMatch_length row.hl rx query.length hbound]; exact hhl,
                 (hr row hmem).2⟩
        · unfold SavedWf
          dsimp only
          rw [List.getElem?_set_self (List.getElem?_eq_some.1 hrow).1]
          exact hhl

end Byote

namespace Byote

/-- The full find callback preserves well-formedness. -/
theorem wf_find_callback (e : EditorConfig) (query : List Char) (key : EditorKey)
    (hw : Wf e) : Wf (editor_find_callback e query key) := by
  have hr1 := rowsWf_findRestoreHl e hw
  have hs1 := findRestoreHl_saved_none e
  unfold editor_find_callback
  dsimp only
  split
  · exact ⟨hr1, savedWf_of_none _ hs1⟩
  · exact ⟨hr1, savedWf_of_none _ hs1⟩
  · split <;> split <;> exact wf_findLoopGo _ _ _ _ hr1 hs1

/-- Row-model mutations do not touch the find state. -/
theorem find_insert_row (e : EditorConfig) (a : Nat) (s : List Char) :
    (editor_insert_row e a s).find = e.find := by
  unfold editor_insert_row; split <;> rfl

/-- `editor_del_row` does not touch the find state. -/
theorem find_del_row (e : EditorConfig) (a : Nat) :
    (editor_del_row e a).find = e.find := by
  unfold editor_del_row; split <;> rfl

/-- `editor_row_insert_char` does not touch the find state. -/
theorem find_row_insert_char (e : EditorConfig) (a : Nat) (c : Char) :
    (editor_row_insert_char e a c).find = e.find := by
  unfold editor_row_insert_char; split <;> rfl

/-- `editor_row_append_string` does not touch the find state. -/
theorem find_row_append_string (e : EditorConfig) (a : Nat) (s : List Char) :
    (editor_row_append_string e a s).find = e.find := by
  unfold editor_row_append_string; split <;> rfl

/-- `editor_row_del_char` does not touch the find state. -/
theorem find_row_del_char (e : EditorConfig) (a b : Nat) :
    (editor_row_del_char e a b).find = e.find := by
  unfold editor_row_del_char; split <;> rfl

/-- `editor_insert_char` does not touch the find state. -/
theorem find_insert_char (e : EditorConfig) (c : Char) :
    (editor_insert_char e c).find = e.find := by
  unfold editor_insert_char
  dsimp only
  split
  · rw [show ∀ x : EditorConfig, ({ x with cx := x.cx + 1 } : EditorConfig).find = x.find from fun _ => rfl,
        find_row_insert_char, find_insert_row]
  · rw [show ∀ x : EditorConfig, ({ x with cx := x.cx + 1 } : EditorConfig).find = x.find from fun _ => rfl,
        find_row_insert_char]

end Byote

namespace Byote

/-- `editor_insert_new_line` does not touch the find state. -/
theorem find_insert_new_line (e : EditorConfig) :
    (editor_insert_new_line e).find = e.find := by
  unfold editor_insert_new_line
  dsimp only
  split
  · rw [find_insert_row]
  · split
    · rfl
    · split
      · rw [find_insert_row]
      · rw [show ∀ x : EditorConfig, ∀ r, ({ x with rows := r } : EditorConfig).find = x.find from fun _ _ => rfl,
            find_insert_row]

/-- `editor_del_char` does not touch the find state. -/
theorem find_del_char (e : EditorConfig) :
    (editor_del_char e).find = e.find := by
  unfold editor_del_char
  dsimp only
  split
  · rfl
  split
  · rfl
  split
  · rw [find_row_del_char]
  · rw [find_del_row, find_row_append_string]

/-- Applying any single operation under its side condition preserves
well-formedness. -/
theorem wf_applyOp (op : EditOp) (e : EditorConfig) (hw : Wf e) (hok : opOk op e) :
    Wf (applyOp op e) := by
  cases op with
  | insertRow a s =>
    exact ⟨rowsWf_insert_row e a s hw.1,
           savedWf_of_none _ (by show (editor_insert_row e a s).find.saved_hl = none
                                 rw [find_insert_row]; exact hok)⟩
  | delRow a =>
    exact ⟨rowsWf_del_row e a hw.1,
           savedWf_of_none _ (by show (editor_del_row e a).find.saved_hl = none
                                 rw [find_del_row]; exact hok)⟩
  | insertChar c =>
    exact ⟨rowsWf_insert_char e c hw.1,
           savedWf_of_none _ (by show (editor_insert_char e c).find.saved_hl = none
                                 rw [find_insert_char]; exact hok)⟩
  | delChar =>
    exact ⟨rowsWf_del_char e hw.1,
           savedWf_of_none _ (by show (editor_del_char e).find.saved_hl = none
                                 rw [find_del_char]; exact hok)⟩
  | appendString a s =>
    exact ⟨rowsWf_row_append_string e a s hw.1,
           savedWf_of_none _ (by show (editor_row_append_string e a s).find.saved_hl = none
                                 rw [find_row_append_string]; exact hok)⟩
  | newline =>
    exact ⟨rowsWf_insert_new_line e hw.1,
           savedWf_of_none _ (by show (editor_insert_new_line e).find.saved_hl = none
                                 rw [find_insert_new_line]; exact hok)⟩
  | findStep q k => exact wf_find_callback e q k hw

/-- C9: starting from a well-formed editor state, after any sequence of
row-model mutations (insert-row, delete-row, insert-char, delete-char,
append-string, newline split, backspace join) and search-callback steps
(highlight splice and restore) — mutations running outside a search
session, as the keyboard dispatch guarantees — every row has one
highlight tag per render character, and its render is the deterministic
rebuild of its text. -/
theorem claim_C9_thm (ops : List EditOp) (e : EditorConfig) (hw : Wf e) (hok : OpsOk ops e) :
    ∀ r ∈ (applyOps ops e).rows, r.hl.length = r.render.length ∧ r.render = renderOf r.chars := by
  suffices h : Wf (applyOps ops e) from fun r hr => h.1 r hr
  induction ops generalizing e with
  | nil => exact hw
  | cons op rest ih => exact ih (applyOp op e) (wf_applyOp op e hw hok.1) hok.2

/-- Witness for C9: a concrete run inserting a row and a character, then
two search-callback steps (splice, then restore-and-splice). -/
theorem claim_C9_witness :
    ((applyOps [EditOp.insertRow 0 ['a', '1', '\t'], EditOp.insertChar 'z',
                EditOp.findStep ['1'] (.Char 115), EditOp.findStep ['a'] (.ArrowRight)]
        (EditorConfig.from_env 26 80)).rows.all
      (fun r => decide (r.hl.length = r.render.length ∧ r.render = renderOf r.chars))) = true := by
  rw [List.all_eq_true]
  intro r hr
  rw [decide_eq_true_eq]
  exact claim_C9_thm [EditOp.insertRow 0 ['a', '1', '\t'], EditOp.insertChar 'z',
      EditOp.findStep ['1'] (.Char 115), EditOp.findStep ['a'] (.ArrowRight)]
    (EditorConfig.from_env 26 80)
    ⟨by intro r2 hr2; simp [EditorConfig.from_env] at hr2, by trivial⟩
    ⟨rfl, rfl, trivial, trivial, trivial⟩ r hr

end Byote

namespace Byote

/-- Characterization of `Int.emod` by a representative in `[0, n)`. -/
theorem int_emod_eq_of (x r n : Int) (h0 : 0 ≤ r) (h1 : r < n) (hd : n ∣ x - r) :
    x % n = r := by
  have h2 : x % n = r % n := by
    apply Int.ModEq.symm
    rw [Int.modEq_iff_dvd]
    exact hd
  rw [h2, Int.emod_eq_of_lt h0 h1]

/-- The loop's wraparound step computes the step modulo the document
length and stays inside `[0, len)`. -/
theorem findWrap_spec (len : Nat) (cur dir : Int)
    (hlen : 1 ≤ len) (hdir : dir = 1 ∨ dir = -1)
    (hlo : -1 ≤ cur) (hhi : cur < (len : Int)) (hneg : cur = -1 → dir = 1) :
    findWrap len (cur + dir) = (cur + dir) % (len : Int) ∧
    0 ≤ findWrap len (cur + dir) ∧ findWrap len (cur + dir) < (len : Int) := by
  have hlen' : (1 : Int) ≤ (len : Int) := by exact_mod_cast hlen
  unfold findWrap
  split_ifs with h1 h2
  · refine ⟨?_, by omega, by omega⟩
    rw [h1]
    exact (int_emod_eq_of (-1) ((len : Int) - 1) len (by omega) (by omega)
      ⟨-1, by ring⟩).symm
  · refine ⟨?_, by omega, by omega⟩
    rw [h2, Int.emod_self]
  · have hx : 0 ≤ cur + dir ∧ cur + dir < (len : Int) := by
      rcases hdir with h | h
      · subst h
        constructor <;> omega
      · subst h
        have hcur : ¬ cur = -1 := fun hc => absurd (hneg hc) (by decide)
        constructor <;> omega
    exact ⟨(Int.emod_eq_of_lt hx.1 hx.2).symm, hx.1, hx.2⟩

end Byote

namespace Byote

/-- From any legal starting index there is a step count `d ≤ len` after
which the wrapped scan lands exactly on row `m`. -/
theorem exists_reach (len : Nat) (cur dir : Int) (m : Nat)
    (hlen : 1 ≤ len) (hm : m < len) (hdir : dir = 1 ∨ dir = -1)
    (hlo : -1 ≤ cur) (hhi : cur < (len : Int)) :
    ∃ d : Nat, 1 ≤ d ∧ d ≤ len ∧ (cur + dir * d) % (len : Int) = (m : Int) := by
  have hlen' : (1 : Int) ≤ (len : Int) := by exact_mod_cast hlen
  have hm' : (m : Int) < (len : Int) := by exact_mod_cast hm
  rcases hdir with h | h <;> subst h
  · set r : Int := ((m : Int) - cur - 1) % (len : Int) with hr
    have hr0 : 0 ≤ r := Int.emod_nonneg _ (by omega)
    have hrlt : r < (len : Int) := Int.emod_lt_of_pos _ (by omega)
    refine ⟨r.toNat + 1, by omega, by omega, ?_⟩
    have hcast : ((r.toNat + 1 : Nat) : Int) = r + 1 := by omega
    rw [hcast]
    apply int_emod_eq_of _ _ _ (by omega) (by omega)
    have hA : (len : Int) ∣ ((m : Int) - cur - 1) - r := Int.dvd_sub_of_emod_eq hr.symm
    have heq : cur + 1 * (r + 1) - m = -(((m : Int) - cur - 1) - r) := by ring
    rw [heq]
    exact dvd_neg.2 hA
  · set r : Int := (-((m : Int) - cur) - 1) % (len : Int) with hr
    have hr0 : 0 ≤ r := Int.emod_nonneg _ (by omega)
    have hrlt : r < (len : Int) := Int.emod_lt_of_pos _ (by omega)
    refine ⟨r.toNat + 1, by omega, by omega, ?_⟩
    have hcast : ((r.toNat + 1 : Nat) : Int) = r + 1 := by omega
    rw [hcast]
    apply int_emod_eq_of _ _ _ (by omega) (by omega)
    have hA : (len : Int) ∣ (-((m : Int) - cur) - 1) - r := Int.dvd_sub_of_emod_eq hr.symm
    have heq : cur + -1 * (r + 1) - m = (-((m : Int) - cur) - 1) - r := by ring
    rw [heq]
    exact hA

end Byote

namespace Byote

/-- The scan loop reaches the unique matching row: if row `m` is the only
row whose render contains the query, and the wrapped walk from `current`
hits `m` within the available fuel, the loop stops with `last_match = m`
and the cursor on row `m`. -/
theorem findLoopGo_finds (e : EditorConfig) (query : List Char) (m : Nat)
    (hm : m < e.rows.length)
    (hdir : e.find.direction = 1 ∨ e.find.direction = -1)
    (huniq : ∀ j < e.rows.length, rowHasMatch e.rows query j ↔ j = m) :
    ∀ (fuel : Nat) (d : Nat) (current : Int),
      -1 ≤ current → current < (e.rows.length : Int) →
      (current = -1 → e.find.direction = 1) →
      1 ≤ d → d ≤ fuel →
      (current + e.find.direction * d) % (e.rows.length : Int) = (m : Int) →
      (findLoopGo e query current fuel).find.last_match = (m : Int) ∧
      (findLoopGo e query current fuel).cy = m := by
  intro fuel
  induction fuel with
  | zero =>
    intro d current _ _ _ hd1 hdf _
    omega
  | succ fuel ih =>
    intro d current hlo hhi hneg hd1 hdf hreach
    have hlen : 1 ≤ e.rows.length := by omega
    obtain ⟨hwrap, hw0, hwlt⟩ := findWrap_spec e.rows.length current e.find.direction
      hlen hdir hlo hhi hneg
    unfold findLoopGo
    dsimp only
    have hlt : (findWrap e.rows.length (current + e.find.direction)).toNat < e.rows.length := by
      omega
    obtain ⟨row, hrow⟩ :
        ∃ r, e.rows[(findWrap e.rows.length (current + e.find.direction)).toNat]? = some r := by
      rw [List.getElem?_eq_getElem hlt]
      exact ⟨_, rfl⟩
    rw [hrow]
    dsimp only
    cases hfind : strFind row.render query with
    | some rx =>
      have hmatch :
          rowHasMatch e.rows query (findWrap e.rows.length (current + e.find.direction)).toNat :=
        ⟨row, hrow, by rw [hfind]; rfl⟩
      have heq : (findWrap e.rows.length (current + e.find.direction)).toNat = m :=
        (huniq _ hlt).1 hmatch
      dsimp only
      exact ⟨by omega, heq⟩
    | none =>
      dsimp only
      have hd2 : 2 ≤ d := by
        by_contra hlt2
        have hdeq : d = 1 := by omega
        subst hdeq
        have hcm : findWrap e.rows.length (current + e.find.direction) = (m : Int) := by
          rw [hwrap]
          simpa using hreach
        have hmm : rowHasMatch e.rows query m := (huniq m hm).2 rfl
        obtain ⟨r2, hr2, hr2match⟩ := hmm
        rw [show m = (findWrap e.rows.length (current + e.find.direction)).toNat by omega,
            hrow] at hr2
        cases hr2
        rw [hfind] at hr2match
        exact absurd hr2match (by simp)
      have hA : (e.rows.length : Int) ∣
          (current + e.find.direction) - findWrap e.rows.length (current + e.find.direction) :=
        Int.dvd_sub_of_emod_eq hwrap.symm
      have hB : (e.rows.length : Int) ∣ (current + e.find.direction * d) - m :=
        Int.dvd_sub_of_emod_eq hreach
      have hC := dvd_sub hB hA
      have hmassage : (current + e.find.direction * d) - m -
            ((current + e.find.direction) - findWrap e.rows.length (current + e.find.direction))
          = findWrap e.rows.length (current + e.find.direction) +
              e.find.direction * ((d : Int) - 1) - m := by ring
      rw [hmassage] at hC
      apply ih (d - 1) (findWrap e.rows.length (current + e.find.direction))
        (by omega) (by omega) (fun hc => absurd hc (by omega)) (by omega) (by omega)
      apply int_emod_eq_of _ _ _ (by omega) (by omega)
      have hcast : ((d - 1 : Nat) : Int) = (d : Int) - 1 := by omega
      rw [hcast]
      exact hC

end Byote

namespace Byote

/-- The highlight restore does not change the number of rows. -/
theorem findRestoreHl_rows_length (e : EditorConfig) :
    (findRestoreHl e).rows.length = e.rows.length := by
  unfold findRestoreHl
  split
  · rfl
  · split
    · rfl
    · simp [List.length_set]

/-- The highlight restore does not change any row's render. -/
theorem findRestoreHl_render (e : EditorConfig) (j : Nat) :
    ((findRestoreHl e).rows[j]?).map ERow.render = (e.rows[j]?).map ERow.render := by
  unfold findRestoreHl
  split
  · rfl
  · split
    · rfl
    · next row hrow =>
      by_cases hj : j = e.find.saved_hl_line
      · subst hj
        rw [List.getElem?_set_self (List.getElem?_eq_some.1 hrow).1, hrow]
        rfl
      · rw [List.getElem?_set_ne (fun hc => hj hc.symm)]

/-- The highlight restore preserves the last match and direction. -/
theorem findRestoreHl_find_eq (e : EditorConfig) :
    (findRestoreHl e).find.last_match = e.find.last_match ∧
    (findRestoreHl e).find.direction = e.find.direction := by
  unfold findRestoreHl
  split
  · exact ⟨rfl, rfl⟩
  · split <;> exact ⟨rfl, rfl⟩

/-- A row-level match only depends on the row's render. -/
theorem rowHasMatch_iff_of_render_eq (rows1 rows2 : List ERow) (query : List Char) (j : Nat)
    (h : (rows1[j]?).map ERow.render = (rows2[j]?).map ERow.render) :
    rowHasMatch rows1 query j ↔ rowHasMatch rows2 query j := by
  unfold rowHasMatch
  cases h1 : rows1[j]? with
  | none =>
    rw [h1] at h
    cases h2 : rows2[j]? with
    | none => simp [h1, h2]
    | some r2 => rw [h2] at h; simp at h
  | some r1 =>
    rw [h1] at h
    cases h2 : rows2[j]? with
    | none => rw [h2] at h; simp at h
    | some r2 =>
      rw [h2] at h
      have hr : r1.render = r2.render := by
        have h' : some r1.render = some r2.render := h
        injection h'
      constructor
      · rintro ⟨r, hr1, hm⟩
        cases hr1
        exact ⟨r2, rfl, hr ▸ hm⟩
      · rintro ⟨r, hr2, hm⟩
        cases hr2
        exact ⟨r1, rfl, hr ▸ hm⟩

/-- Entering the scan loop with a legal starting index and the unique
matching row `m` always finds `m`. -/
theorem findLoop_entry (e : EditorConfig) (query : List Char) (m : Nat)
    (hm : m < e.rows.length)
    (hdir : e.find.direction = 1 ∨ e.find.direction = -1)
    (hlo : -1 ≤ e.find.last_match) (hhi : e.find.last_match < (e.rows.length : Int))
    (hneg : e.find.last_match = -1 → e.find.direction = 1)
    (huniq : ∀ j < e.rows.length, rowHasMatch e.rows query j ↔ j = m) :
    (findLoopGo e query e.find.last_match e.rows.length).find.last_match = (m : Int) ∧
    (findLoopGo e query e.find.last_match e.rows.length).cy = m := by
  obtain ⟨d, hd1, hdlen, hreach⟩ := exists_reach e.rows.length e.find.last_match
    e.find.direction m (by omega) hm hdir hlo hhi
  exact findLoopGo_finds e query m hm hdir huniq e.rows.length d e.find.last_match
    hlo hhi hneg hd1 hdlen hreach

end Byote

namespace Byote

/-- C4: for a document in which exactly one row's rendered text contains
the query, one step of the search callback with any session-continuing
key (not Escape/Return), starting from any legal `last_match` (−1 for
none) and either direction, finds that row: afterwards `last_match` and
the cursor row equal the unique matching row's index. -/
theorem claim_C4_thm (e : EditorConfig) (query : List Char) (key : EditorKey) (m : Nat)
    (hkey1 : key ≠ .Escape) (hkey2 : key ≠ .Return)
    (hlo : -1 ≤ e.find.last_match) (hhi : e.find.last_match < (e.rows.length : Int))
    (hdir : e.find.direction = 1 ∨ e.find.direction = -1)
    (hm : m < e.rows.length)
    (huniq : ∀ j < e.rows.length, rowHasMatch e.rows query j ↔ j = m) :
    (editor_find_callback e query key).find.last_match = (m : Int) ∧
    (editor_find_callback e query key).cy = m := by
  have hlen1 : (findRestoreHl e).rows.length = e.rows.length := findRestoreHl_rows_length e
  have hfind1 := findRestoreHl_find_eq e
  have huniq1 : ∀ j < (findRestoreHl e).rows.length,
      rowHasMatch (findRestoreHl e).rows query j ↔ j = m := by
    intro j hj
    rw [rowHasMatch_iff_of_render_eq _ e.rows query j (findRestoreHl_render e j)]
    exact huniq j (by omega)
  have hm1 : m < (findRestoreHl e).rows.length := by omega
  unfold editor_find_callback
  dsimp only
  cases key
  case Escape => exact absurd rfl hkey1
  case Return => exact absurd rfl hkey2
  case ArrowLeft =>
    dsimp only
    split_ifs with h
    · refine findLoop_entry _ query m hm1 (Or.inl rfl) ?_ ?_ (fun _ => rfl) huniq1
      · dsimp only; rw [hfind1.1]; exact hlo
      · dsimp only; rw [hfind1.1, hlen1]; exact hhi
    · refine findLoop_entry _ query m hm1 (Or.inr rfl) ?_ ?_ (fun hc => absurd hc h) huniq1
      · dsimp only; rw [hfind1.1]; exact hlo
      · dsimp only; rw [hfind1.1, hlen1]; exact hhi
  case ArrowUp =>
    dsimp only
    split_ifs with h
    · refine findLoop_entry _ query m hm1 (Or.inl rfl) ?_ ?_ (fun _ => rfl) huniq1
      · dsimp only; rw [hfind1.1]; exact hlo
      · dsimp only; rw [hfind1.1, hlen1]; exact hhi
    · refine findLoop_entry _ query m hm1 (Or.inr rfl) ?_ ?_ (fun hc => absurd hc h) huniq1
      · dsimp only; rw [hfind1.1]; exact hlo
      · dsimp only; rw [hfind1.1, hlen1]; exact hhi
  case ArrowDown =>
    dsimp only
    split_ifs with h
    · refine findLoop_entry _ query m hm1 (Or.inl rfl) ?_ ?_ (fun _ => rfl) huniq1
      · dsimp only; rw [hfind1.1]; exact hlo
      · dsimp only; rw [hfind1.1, hlen1]; exact hhi
    · refine findLoop_entry _ query m hm1 (Or.inl rfl) ?_ ?_ (fun hc => absurd hc h) huniq1
      · dsimp only; rw [hfind1.1]; exact hlo
      · dsimp only; rw [hfind1.1, hlen1]; exact hhi
  case ArrowRight =>
    dsimp only
    split_ifs with h
    · refine findLoop_entry _ query m hm1 (Or.inl rfl) ?_ ?_ (fun _ => rfl) huniq1
      · dsimp only; rw [hfind1.1]; exact hlo
      · dsimp only; rw [hfind1.1, hlen1]; exact hhi
    · refine findLoop_entry _ query m hm1 (Or.inl rfl) ?_ ?_ (fun hc => absurd hc h) huniq1
      · dsimp only; rw [hfind1.1]; exact hlo
      · dsimp only; rw [hfind1.1, hlen1]; exact hhi
  all_goals
    dsimp only
    split_ifs with h
    · refine findLoop_entry _ query m hm1 (Or.inl rfl) (le_refl _) ?_ (fun _ => rfl) huniq1
      dsimp only
      rw [hlen1]
      omega
    · exact absurd rfl h
end Byote

namespace Byote

/-- `rowHasMatch` in an executable form, for concrete evaluation. -/
theorem rowHasMatch_iff_decide (rows : List ERow) (query : List Char) (j : Nat) :
    rowHasMatch rows query j ↔
      ((rows[j]?).map (fun r => (strFind r.render query).isSome)).getD false = true := by
  unfold rowHasMatch
  cases h : rows[j]? with
  | none => simp
  | some r => simp

/-- Witness for C4: a three-row document whose middle row uniquely
contains the query `"qw"`, searched from `last_match = 2` going backward
with a continuing printable key. -/
theorem claim_C4_witness :
    let e0 := { EditorConfig.from_env 26 80 with rows := [mkRow ['a'], mkRow ['q', 'w'], mkRow ['b']], find := { last_match := 2, direction := -1, saved_hl_line := 0, saved_hl := none } }
    (editor_find_callback e0 ['q', 'w'] (.Char 120)).find.last_match = (1 : Int) ∧
    (editor_find_callback e0 ['q', 'w'] (.Char 120)).cy = 1 :=
  claim_C4_thm
    { EditorConfig.from_env 26 80 with rows := [mkRow ['a'], mkRow ['q', 'w'], mkRow ['b']], find := { last_match := 2, direction := -1, saved_hl_line := 0, saved_hl := none } }
    ['q', 'w'] (.Char 120) 1
    (by decide) (by decide) (by decide) (by decide) (by decide) (by decide)
    (by
      intro j hj
      rw [rowHasMatch_iff_decide]
      revert hj
      revert j
      decide)

end Byote
